import Mathlib

/-!
Verification development for the tfblocks utility (src/tfblocks/main.py).
Python strings are embedded as `List Char`; the regular expressions of the
source are embedded character-wise with Python `re` semantics (in particular,
`.` matches every character except the newline, and `$` accepts the end of the
string or a position just before a single final newline).
-/

namespace Tfblocks

/-- Convert a Lean string literal to the character-list representation used
throughout this development. -/
def tl (s : String) : List Char := s.toList

/-- The newline character; Python regex `.` matches any character except it. -/
def nlChar : Char := Char.ofNat 10

/-- The double-quote character. -/
def dqChar : Char := Char.ofNat 34

/-- The single-quote character. -/
def sqChar : Char := Char.ofNat 39

/-- Python `str.split(sep)` for a one-character separator: always returns at
least one (possibly empty) segment, and empty segments are kept. -/
def splitOnChar (sep : Char) : List Char → List (List Char)
  | [] => [[]]
  | c :: rest =>
    let r := splitOnChar sep rest
    if c == sep then [] :: r
    else
      match r with
      | s :: ss => (c :: s) :: ss
      | [] => [[c]]

/-- The check `segment.startswith("module")` used on address segments in
`extract_address_segment` (main.py:68,71). -/
def startsWithModule (s : List Char) : Bool := (tl "module").isPrefixOf s

/-- Embedding of `extract_address_segment` (main.py:60-73): split the address
on dots and return the trailing `type.name` pair joined by a dot, or `none`.
The unreachable `elif` branch of the source is reproduced faithfully. -/
def extract_address_segment (resource_address : List Char) : Option (List Char) :=
  let parts := splitOnChar '.' resource_address
  if 2 ≤ parts.length ∧ ¬ startsWithModule (parts.getD (parts.length - 2) []) then
    some (parts.getD (parts.length - 2) [] ++ '.' :: parts.getD (parts.length - 1) [])
  else if parts.length = 2 ∧ ¬ startsWithModule (parts.getD 0 []) then
    some (parts.getD 0 [] ++ '.' :: parts.getD 1 [])
  else none

/-- Length of the content matched by the lazy `.+?` inside a quoted instance
key (the alternatives `\[".+?"\]` and its single-quote analogue): scanning
after the opening quote, the shortest non-empty newline-free content that is
followed by the closing quote and a closing bracket, if any exists. -/
def lazyQuotedLen (q : Char) : List Char → Option Nat
  | [] => none
  | c :: q2 :: rb :: rest =>
    if c == nlChar then none
    else if q2 == q && rb == ']' then some 1
    else (lazyQuotedLen q (q2 :: rb :: rest)).map (· + 1)
  | c :: rest =>
    if c == nlChar then none
    else (lazyQuotedLen q rest).map (· + 1)

/-- Embedding of the trailing `(.*)$` of the base-address regex
(main.py:95): the remainder may contain no newline at all, or exactly one
newline as its final character. -/
def dollarTail (r : List Char) : Bool :=
  !(r.contains nlChar) || (!(r.dropLast.contains nlChar) && r.getLastD ' ' == nlChar)

/-- Does the greedy `\d+` followed by a closing bracket match right after an
opening bracket?  This is the shared head of the first key alternative: the
maximal digit run is non-empty and the next character is the bracket. -/
def intKeyHead (r : List Char) : Bool :=
  let ds := r.takeWhile Char.isDigit
  !ds.isEmpty && ((r.drop ds.length).headD ' ' == ']')

/-- The first key alternative together with the `(.*)$` tail of the
base-address regex. -/
def intKeyTail (r : List Char) : Bool :=
  intKeyHead r && dollarTail ((r.drop (r.takeWhile Char.isDigit).length).tail)

/-- If one of the instance-key alternatives — `\[\d+\]`, `\[".+?"\]`, or the
single-quote analogue, tried in this order as in the source regexes — matches
at the head of the string, return the number of characters it consumes
(Python quantifier semantics: greedy `\d+`, lazy `.+?`). -/
def keyMatchLen : List Char → Option Nat
  | c :: q :: r2 =>
    if c == '[' then
      if intKeyHead (q :: r2) then some (((q :: r2).takeWhile Char.isDigit).length + 2)
      else if q == dqChar then (lazyQuotedLen dqChar r2).map (· + 4)
      else if q == sqChar then (lazyQuotedLen sqChar r2).map (· + 4)
      else none
    else none
  | _ => none

/-- Worker for `stripInstanceKeys`, structurally recursive on a fuel argument
so that concrete calls reduce inside the kernel; every step consumes at least
one character, so fuel equal to the length of the string is always enough and
the zero-fuel branch is unreachable from `stripInstanceKeys`. -/
def stripKeysFuel : Nat → List Char → List Char
  | _, [] => []
  | 0, s => s
  | fuel + 1, c :: rest =>
    match keyMatchLen (c :: rest) with
    | some n => stripKeysFuel fuel (rest.drop (n - 1))
    | none => c :: stripKeysFuel fuel rest

/-- Embedding of the instance-key-stripping substitution used in
`generate_removed_block` (main.py:287) and `generate_blocks_for_command`
(main.py:327): delete every leftmost non-overlapping instance-key occurrence,
scanning left to right as Python `re.sub` does. -/
def stripInstanceKeys (s : List Char) : List Char := stripKeysFuel s.length s

/-- Does the string contain, starting at any position, a substring matched by
one of the three instance-key alternatives? -/
def containsInstanceKey : List Char → Bool
  | [] => false
  | c :: rest => (keyMatchLen (c :: rest)).isSome || containsInstanceKey rest

/-- Viability of a quoted instance key followed by `(.*)$`: some non-empty
newline-free content is followed by the closing quote, a closing bracket, and
a tail accepted by `dollarTail`.  Python would find such a split by
backtracking the lazy `.+?`, so only existence matters here. -/
def quotedTail (q : Char) : List Char → Bool
  | [] => false
  | c :: q2 :: rb :: tail =>
    if c == nlChar then false
    else (q2 == q && rb == ']' && dollarTail tail) || quotedTail q (q2 :: rb :: tail)
  | c :: rest =>
    if c == nlChar then false
    else quotedTail q rest

/-- Does `(\[\d+\]|\[".+?"\]|...)(.*)$` (with the single-quote alternative
elided from this comment) match the whole of the given string?  This decides
whether a candidate `group(1)` split of the base-address regex is viable. -/
def keyTailOk : List Char → Bool
  | c :: q :: r2 =>
    (c == '[') &&
      (intKeyTail (q :: r2)
        || (q == dqChar && quotedTail dqChar r2)
        || (q == sqChar && quotedTail sqChar r2))
  | _ => false

/-- Worker for `baseAddrG1`: the accumulator holds the candidate `group(1)`
built so far; the lazy `.+?` extends it one character at a time, never past a
newline, until the rest of the string is accepted by `keyTailOk`. -/
def baseG1Aux (acc : List Char) : List Char → Option (List Char)
  | [] => none
  | c :: rest =>
    if c == nlChar then none
    else if keyTailOk rest then some (acc ++ [c])
    else baseG1Aux (acc ++ [c]) rest

/-- Embedding of the base-address extraction of `matches_resource_address_filter`
(main.py:95-98): `group(1)` of the match of the base-address regex against the
address, i.e. the shortest non-empty newline-free prefix that is immediately
followed by an instance key with an acceptable tail. -/
def baseAddrG1 (resource_address : List Char) : Option (List Char) :=
  baseG1Aux [] resource_address

/-- Matching of one `.*chunk` group of the compiled wildcard regex: skip any
number of non-newline characters, then match the literal chunk and hand the
remainder to the continuation `k`. -/
def scanChunk (c : List Char) (k : List Char → Bool) : List Char → Bool
  | [] => c.isPrefixOf [] && k []
  | ch :: t =>
    (c.isPrefixOf (ch :: t) && k ((ch :: t).drop c.length))
    || (!(ch == nlChar) && scanChunk c k t)

/-- Matching of the compiled wildcard regex after its first literal chunk:
before each remaining chunk `.*` may skip any number of non-newline
characters; after the last chunk `$` accepts the end of the string or a
single final newline. -/
def globStar : List (List Char) → List Char → Bool
  | [] => fun s => s.isEmpty || s == [nlChar]
  | c :: cs => scanChunk c (globStar cs)

/-- Embedding of the wildcard branch (main.py:83-88): the filter is escaped,
every `*` becomes `.*`, the result is anchored with `^` and `$` and tested
with `re.match` against the address.  Character-wise: split the filter on `*`,
match the first chunk at the very start, then the remaining chunks in order
with non-newline gaps. -/
def wildcardMatch (resource_address resource_address_filter : List Char) : Bool :=
  match splitOnChar '*' resource_address_filter with
  | [] => false
  | c :: cs =>
    c.isPrefixOf resource_address && globStar cs (resource_address.drop c.length)

/-- Embedding of `matches_resource_address_filter` (main.py:76-122); the
sequence of early returns of the source becomes a disjunction. -/
def matches_resource_address_filter
    (resource_address resource_address_filter : List Char) : Bool :=
  (resource_address_filter.contains '*'
      && wildcardMatch resource_address resource_address_filter)
  || resource_address == resource_address_filter
  || (match baseAddrG1 resource_address with
      | some base_address =>
        base_address == resource_address_filter
        || ((tl "module.").isPrefixOf resource_address_filter
            && (resource_address_filter ++ [ '.' ]).isPrefixOf base_address)
      | none => false)
  || ((tl "module.").isPrefixOf resource_address_filter
      && (resource_address_filter ++ [ '.' ]).isPrefixOf resource_address)
  || (match extract_address_segment resource_address,
        extract_address_segment resource_address_filter with
      | some res_type_name, some filter_type_name => res_type_name == filter_type_name
      | _, _ => false)

/-- Embedding of `matches_filters` (main.py:125-171).  The per-file pattern
map (a Python dict with insertion order) is an association list; `find?`
mirrors the `next(...)` over the dict items. -/
def matches_filters (resource_address : List Char)
    (filter_resource_addresses : List (List Char))
    (resource_addresses_by_file : List (List Char × List (List Char))) :
    Bool × Option (List Char) :=
  let matches_address_filter := filter_resource_addresses.any
    (fun f => matches_resource_address_filter resource_address f)
  let matching_filename := (resource_addresses_by_file.find?
    (fun p => p.2.any
      (fun f => matches_resource_address_filter resource_address f))).map (·.1)
  let m := (matches_address_filter || filter_resource_addresses.isEmpty)
        && (matching_filename.isSome || resource_addresses_by_file.isEmpty)
  (m, matching_filename)

/-- A resource entry of the state tree.  The `mode` and `provider_name` fields
are optional because the source reads them with `dict.get`; the remaining
fields are read with mandatory indexing.  `rtype` stands for the JSON field
named `type`, and `values` for the attribute map passed to the import-id
generators. -/
structure Resource where
  address : List Char
  mode : Option (List Char)
  rtype : List Char
  provider_name : Option (List Char)
  values : List (List Char × List Char)
deriving DecidableEq

/-- A container node of the state tree: `resources` and `child_modules` are
optional, matching `module.get("resources", [])` and
`module.get("child_modules", [])` in `filter_resources` (main.py:203,206). -/
inductive ModuleNode where
  | mk (resources : Option (List Resource)) (child_modules : Option (List ModuleNode))

/-- The resources field of a node, with a missing list treated as empty. -/
def ModuleNode.res : ModuleNode → List Resource
  | .mk r _ => r.getD []

mutual
/-- The sequence of resources visited by the worklist loop of
`filter_resources` (main.py:199-206) started on this node: the node's own
resources first, then the child subtrees in reverse list order, because the
loop pops from the end of the worklist after extending it with the children. -/
def walkMod : ModuleNode → List Resource
  | .mk r none => r.getD []
  | .mk r (some cs) => r.getD [] ++ walkRev cs

/-- Visit a list of sibling subtrees from its last element to its first. -/
def walkRev : List ModuleNode → List Resource
  | [] => []
  | m :: ms => walkRev ms ++ walkMod m
end

/-- Grouped selection results: the keys of the Python result dict in insertion
order, each with its list of matching resources. -/
abbrev Groups := List (Option (List Char) × List Resource)

/-- Append a resource to the group of the given key, creating the group at the
end when the key is new — the behaviour of the dict update in
`filter_resources` (main.py:213-216). -/
def addToGroup (key : Option (List Char)) (r : Resource) (g : Groups) : Groups :=
  if g.any (fun p => p.1 == key) then
    g.map (fun p => if p.1 == key then (p.1, p.2 ++ [r]) else p)
  else g ++ [(key, [r])]

/-- Effect of one loop iteration of `filter_resources` (main.py:206-216) on
the grouped results: a resource is added exactly when its `mode` is
`managed` and `matches_filters` accepts it; the group key is the matching
file when file filters are present and `none` otherwise. -/
def select_step (addresses : List (List Char))
    (byFile : List (List Char × List (List Char)))
    (g : Groups) (r : Resource) : Groups :=
  if r.mode == some (tl "managed") then
    let res := matches_filters r.address addresses byFile
    if res.1 then addToGroup (if byFile.isEmpty then none else res.2) r g else g
  else g

/-- The selection loop of `filter_resources` over an already-built per-file
pattern map: fold the per-resource step over the worklist visit order. -/
def select_loop (root : ModuleNode) (addresses : List (List Char))
    (byFile : List (List Char × List (List Char))) : Groups :=
  (walkMod root).foldl (select_step addresses byFile) []

/-- Insert a key/value pair into an insertion-ordered dict modelled as an
association list: overwrite in place when the key exists, append otherwise. -/
def dictInsert (acc : List (List Char × List (List Char)))
    (k : List Char) (v : List (List Char)) : List (List Char × List (List Char)) :=
  if acc.any (fun p => p.1 == k) then
    acc.map (fun p => if p.1 == k then (k, v) else p)
  else acc ++ [(k, v)]

/-- Construction of `resource_addresses_by_file` (main.py:183-187): each file
whose extraction yields a non-empty address list gets an entry.  File reading
and regex scanning are abstracted by the `extract` oracle, the embedding of
`extract_addresses_from_file`. -/
def buildByFile (extract : List Char → List (List Char))
    (files : List (List Char)) : List (List Char × List (List Char)) :=
  files.foldl (fun acc f =>
    let e := extract f
    if e.isEmpty then acc else dictInsert acc f e) []

/-- Embedding of `filter_resources` (main.py:174-224), with the state tree
rooted at the given node and file extraction abstracted by `extract`.  The
warnings the source prints to stderr do not affect the returned value and are
not modelled. -/
def filter_resources (extract : List Char → List (List Char))
    (root : ModuleNode) (addresses : List (List Char))
    (files : List (List Char)) : Groups :=
  select_loop root addresses (buildByFile extract files)

/-- Membership of a resource in any group of a selection result. -/
def groupsMem (g : Groups) (r : Resource) : Prop :=
  ∃ p ∈ g, r ∈ p.2

instance instDecidableGroupsMem (g : Groups) (r : Resource) :
    Decidable (groupsMem g r) := by
  unfold groupsMem
  infer_instance

/-- Embedding of `generate_removed_block` (main.py:278-293): the emitted text
with the instance keys stripped from the `from` address and the lifecycle
line chosen by the `destroy` flag. -/
def generate_removed_block (resource_address : List Char) (destroy : Bool) :
    List Char :=
  let destroy_line :=
    if destroy then tl "\n    destroy = true" else tl "\n    destroy = false"
  tl "removed \x7b\n  from = " ++ stripInstanceKeys resource_address
    ++ tl "\n  lifecycle \x7b" ++ destroy_line ++ tl "\n  \x7d\n\x7d"

/-- Embedding of `generate_moved_block` (main.py:296-305). -/
def generate_moved_block (resource_address : List Char) : List Char :=
  tl "moved \x7b\n  from = " ++ resource_address
    ++ tl "\n  to   = " ++ resource_address ++ tl " # TODO\n\x7d"

/-- An import-id generator: the embedding of one registry class from
aws_resources.py as consumed by `generate_import_block`.  Constructing the
instance and reading its `import_id` property is a single call from the
address and attribute map; a Python exception raised anywhere inside it is an
`Except.error`, and an absent identifier is `Except.ok none`. -/
def ImportGen : Type :=
  List Char → List (List Char × List Char) → Except Unit (Option (List Char))

/-- Worker for `replaceAll`, structurally recursive on fuel; every step
consumes at least one character of the scanned string, so fuel equal to its
length is always enough. -/
def replaceAllFuel (pat repl : List Char) : Nat → List Char → List Char
  | _, [] => []
  | 0, s => s
  | fuel + 1, c :: rest =>
    if pat.isPrefixOf (c :: rest) then
      repl ++ replaceAllFuel pat repl fuel (rest.drop (pat.length - 1))
    else c :: replaceAllFuel pat repl fuel rest

/-- Replace every non-overlapping occurrence of a non-empty pattern,
scanning left to right — Python `str.replace` for a non-empty needle. -/
def replaceAll (pat repl s : List Char) : List Char :=
  replaceAllFuel pat repl s.length s

/-- The AWS documentation URL built in `generate_import_block` (main.py:243):
every occurrence of `aws_` in the type is removed by `str.replace`. -/
def aws_doc_url (rtype : List Char) : List Char :=
  tl "https://registry.terraform.io/providers/hashicorp/aws/latest/docs/resources/"
    ++ replaceAll (tl "aws_") [] rtype ++ tl "#import"

/-- The placeholder import id for an AWS resource without a derived
identifier (main.py:244): an empty quoted string followed by a TODO comment
holding the documentation URL. -/
def aws_placeholder_id (rtype : List Char) : List Char :=
  dqChar :: dqChar :: (tl " # TODO: " ++ aws_doc_url rtype)

/-- The emitted import block text (main.py:272-275). -/
def import_block_template (address import_id : List Char) : List Char :=
  tl "import \x7b\n  to = " ++ address ++ tl "\n  id = " ++ import_id ++ tl "\n\x7d"

/-- Python `str.removeprefix`. -/
def removePrefixIfPresent (pat s : List Char) : List Char :=
  if pat.isPrefixOf s then s.drop pat.length else s

/-- Embedding of `generate_import_block` (main.py:227-275).  The registry
lookup `schema_classes.get(resource["type"])` is the `schema` argument; a
`some` generator whose call errors or yields no identifier leaves the AWS
placeholder id in place, exactly as the `try/except` of the source does. -/
def generate_import_block (schema : List Char → Option ImportGen)
    (r : Resource) (supported_providers_only : Bool) : Option (List Char) :=
  let provider_name :=
    if r.rtype.contains '_' then (splitOnChar '_' r.rtype).headD [] else []
  if provider_name == tl "aws" then
    let import_id :=
      match schema r.rtype with
      | none => aws_placeholder_id r.rtype
      | some gen =>
        match gen r.address r.values with
        | .error _ => aws_placeholder_id r.rtype
        | .ok none => aws_placeholder_id r.rtype
        | .ok (some i) => dqChar :: (i ++ [dqChar])
    some (import_block_template r.address import_id)
  else if !supported_providers_only then
    let pn := r.provider_name.getD []
    let import_id :=
      if (tl "registry.terraform.io/").isPrefixOf pn then
        let parts := splitOnChar '/' pn
        if 3 ≤ parts.length then
          let org := parts.getD 1 []
          let provider := parts.getD 2 []
          dqChar :: dqChar :: (tl " # TODO: "
            ++ tl "https://registry.terraform.io/providers/" ++ org ++ [ '/' ]
            ++ provider ++ tl "/latest/docs/resources/"
            ++ removePrefixIfPresent (provider_name ++ [ '_' ]) r.rtype
            ++ tl "#import")
        else dqChar :: dqChar :: tl " # TODO"
      else dqChar :: dqChar :: tl " # TODO"
    some (import_block_template r.address import_id)
  else none

/-- The remove-command loop of `generate_blocks_for_command` (main.py:321-334):
emit a removed block for each resource whose stripped base address has not
been seen before; `seen` models the `base_addresses` set. -/
def removeDedupLoop (destroy : Bool) : List Resource → List (List Char) → List (List Char)
  | [], _ => []
  | r :: rs, seen =>
    let base := stripInstanceKeys r.address
    if seen.contains base then removeDedupLoop destroy rs seen
    else generate_removed_block r.address destroy :: removeDedupLoop destroy rs (base :: seen)

/-- Embedding of `generate_blocks_for_command` (main.py:308-350), with the
registry passed explicitly (the source builds it by module reflection, which
the spec places outside the core).  An unknown command raises `ValueError` in
the source and is `none` here. -/
def generate_blocks_for_command (schema : List Char → Option ImportGen)
    (resources : List Resource) (command : List Char)
    (destroy : Bool) (supported_providers_only : Bool) :
    Option (List (List Char)) :=
  if command == tl "remove" then
    some (removeDedupLoop destroy resources [])
  else if command == tl "import" then
    some (resources.filterMap
      (fun r => generate_import_block schema r supported_providers_only))
  else if command == tl "move" then
    some (resources.map (fun r => generate_moved_block r.address))
  else none

/-- Modelled from the spec: distinct base addresses in first-seen order
(§4.5 Remove — one block per distinct base address, first-seen order); used
as the specification side of the remove-block claim. -/
def dedupKeepFirst : List (List Char) → List (List Char)
  | [] => []
  | b :: bs => b :: dedupKeepFirst (bs.filter (fun x => !(x == b)))
termination_by l => l.length
decreasing_by
  simp only [List.length_cons]
  exact Nat.lt_succ_of_le (List.length_filter_le _ _)

/-- Modelled from the spec: the removed block emitted for one distinct base
address (§4.5 Remove and §8 scenario — the block targets the bracket-free
base address and carries the lifecycle destroy flag). -/
def removedBlockForBase (base : List Char) (destroy : Bool) : List Char :=
  tl "removed \x7b\n  from = " ++ base ++ tl "\n  lifecycle \x7b"
    ++ (if destroy then tl "\n    destroy = true" else tl "\n    destroy = false")
    ++ tl "\n  \x7d\n\x7d"

/-! Demonstration fixtures used by witnesses and counterexamples. -/

/-- A managed single-instance resource used as a concrete test input. -/
def demoRes : Resource :=
  ⟨tl "aws_s3_bucket.included", some (tl "managed"), tl "aws_s3_bucket", none, []⟩

/-- A one-resource root container used as a concrete test input. -/
def demoRoot : ModuleNode := .mk (some [demoRes]) none

/-! Helper lemmas about the selection machinery. -/

theorem find?_isSome_eq_any {α : Type} (p : α → Bool) (l : List α) :
    (l.find? p).isSome = l.any p := by
  induction l with
  | nil => rfl
  | cons x xs ih =>
    by_cases h : p x = true
    · simp [List.find?_cons_of_pos _ h, h]
    · have h2 : p x = false := by
        revert h
        cases p x <;> simp
      simp [List.find?_cons_of_neg _ h, h2, ih]

theorem groupsMem_addToGroup (k : Option (List Char)) (x : Resource)
    (g : Groups) (r : Resource) :
    groupsMem (addToGroup k x g) r ↔ groupsMem g r ∨ r = x := by
  unfold addToGroup groupsMem
  by_cases h : g.any (fun p => p.1 == k) = true
  · simp only [h, if_true]
    constructor
    · rintro ⟨a, ha, hr⟩
      obtain ⟨b, hb, hrb⟩ := List.mem_map.mp ha
      by_cases hk : b.1 == k
      · rw [if_pos hk] at hrb
        subst hrb
        rcases List.mem_append.mp hr with h1 | h1
        · exact Or.inl ⟨b, hb, h1⟩
        · exact Or.inr (List.mem_singleton.mp h1)
      · rw [if_neg hk] at hrb
        subst hrb
        exact Or.inl ⟨b, hb, hr⟩
    · rintro (⟨a, ha, hr⟩ | rfl)
      · refine ⟨if a.1 == k then (a.1, a.2 ++ [x]) else a, List.mem_map_of_mem _ ha, ?_⟩
        by_cases hk : a.1 == k
        · rw [if_pos hk]
          exact List.mem_append.mpr (Or.inl hr)
        · rw [if_neg hk]
          exact hr
      · obtain ⟨a, ha, hk⟩ := List.any_eq_true.mp h
        refine ⟨(a.1, a.2 ++ [r]), ?_, List.mem_append.mpr (Or.inr (List.mem_singleton.mpr rfl))⟩
        have : (if a.1 == k then (a.1, a.2 ++ [r]) else a) = (a.1, a.2 ++ [r]) := if_pos hk
        exact this ▸ List.mem_map_of_mem _ ha
  · simp only [h, if_false]
    constructor
    · rintro ⟨a, ha, hr⟩
      rcases List.mem_append.mp ha with h1 | h1
      · exact Or.inl ⟨a, h1, hr⟩
      · rw [List.mem_singleton.mp h1] at hr
        exact Or.inr (List.mem_singleton.mp hr)
    · rintro (⟨a, ha, hr⟩ | rfl)
      · exact ⟨a, List.mem_append.mpr (Or.inl ha), hr⟩
      · exact ⟨(k, [r]), List.mem_append.mpr (Or.inr (List.mem_singleton.mpr rfl)),
          List.mem_singleton.mpr rfl⟩

theorem groupsMem_select_step (A : List (List Char))
    (F : List (List Char × List (List Char))) (g : Groups) (x r : Resource) :
    groupsMem (select_step A F g x) r ↔
      groupsMem g r
        ∨ (r = x ∧ x.mode = some (tl "managed")
            ∧ (matches_filters x.address A F).1 = true) := by
  simp only [select_step]
  by_cases hm : (x.mode == some (tl "managed")) = true
  · have hm2 : x.mode = some (tl "managed") := beq_iff_eq.mp hm
    rw [if_pos hm]
    by_cases hf : (matches_filters x.address A F).1 = true
    · rw [if_pos hf, groupsMem_addToGroup]
      simp [hm2, hf]
    · rw [if_neg hf]
      simp [hm2, hf]
  · rw [if_neg hm]
    have hm2 : ¬ x.mode = some (tl "managed") := fun he => hm (beq_iff_eq.mpr he)
    simp [hm2]

theorem groupsMem_select_foldl (A : List (List Char))
    (F : List (List Char × List (List Char))) (l : List Resource)
    (g : Groups) (r : Resource) :
    groupsMem (l.foldl (select_step A F) g) r ↔
      groupsMem g r
        ∨ (r ∈ l ∧ r.mode = some (tl "managed")
            ∧ (matches_filters r.address A F).1 = true) := by
  induction l generalizing g with
  | nil => simp [List.foldl_nil]
  | cons x xs ih =>
    rw [List.foldl_cons, ih, groupsMem_select_step]
    constructor
    · rintro ((h | ⟨rfl, hm, hf⟩) | ⟨hx, hm, hf⟩)
      · exact Or.inl h
      · exact Or.inr ⟨List.mem_cons_self _ _, hm, hf⟩
      · exact Or.inr ⟨List.mem_cons_of_mem _ hx, hm, hf⟩
    · rintro (h | ⟨hx, hm, hf⟩)
      · exact Or.inl (Or.inl h)
      · rcases List.mem_cons.mp hx with rfl | hx2
        · exact Or.inl (Or.inr ⟨rfl, hm, hf⟩)
        · exact Or.inr ⟨hx2, hm, hf⟩

theorem groupsMem_select_loop (root : ModuleNode) (A : List (List Char))
    (F : List (List Char × List (List Char))) (r : Resource) :
    groupsMem (select_loop root A F) r ↔
      r ∈ walkMod root ∧ r.mode = some (tl "managed")
        ∧ (matches_filters r.address A F).1 = true := by
  unfold select_loop
  rw [groupsMem_select_foldl]
  simp [groupsMem]

theorem matches_filters_fst (a : List Char) (A : List (List Char))
    (F : List (List Char × List (List Char))) :
    (matches_filters a A F).1 =
      ((A.any (fun f => matches_resource_address_filter a f) || A.isEmpty)
        && (F.any (fun p => p.2.any (fun f => matches_resource_address_filter a f))
              || F.isEmpty)) := by
  unfold matches_filters
  simp only [Option.isSome_map', find?_isSome_eq_any]

theorem buildByFile_all_empty (extract : List Char → List (List Char))
    (files : List (List Char)) (h : ∀ f ∈ files, extract f = []) :
    buildByFile extract files = [] := by
  unfold buildByFile
  induction files with
  | nil => rfl
  | cons f fs ih =>
    rw [List.foldl_cons]
    have hf : extract f = [] := h f (List.mem_cons_self _ _)
    simp only [hf, List.isEmpty_nil, if_true]
    exact ih (fun x hx => h x (List.mem_cons_of_mem _ hx))

/-! Claims. -/

/-- C1 counterexample: giving one filter file whose extraction yields zero
addresses does NOT produce an empty result — the managed resource of the
demonstration state is still selected (under the `none` group), because
`filter_resources` only warns and then calls `matches_filters` with an empty
per-file map, which the match formula treats as an absent file filter. -/
theorem claim_c1_counterexample :
    groupsMem (filter_resources (fun _ => []) demoRoot [] [tl "main.tf"]) demoRes := by
  decide

/-- C1 amended: when filter files are supplied but extraction yields zero
addresses from every one of them, the run behaves exactly as if no files had
been supplied at all — the file filter is dropped (with a warning) and
selection falls back to the explicit address filters alone. -/
theorem claim_c1_amended (extract : List Char → List (List Char))
    (root : ModuleNode) (addresses : List (List Char)) (files : List (List Char))
    (hne : files ≠ []) (hempty : ∀ f ∈ files, extract f = []) :
    filter_resources extract root addresses files
      = filter_resources extract root addresses [] := by
  unfold filter_resources
  rw [buildByFile_all_empty extract files hempty]
  rfl

theorem claim_c1_witness :
    filter_resources (fun _ => ([] : List (List Char))) demoRoot [] [tl "main.tf"]
      = filter_resources (fun _ => ([] : List (List Char))) demoRoot [] [] :=
  claim_c1_amended _ demoRoot [] [tl "main.tf"] (by decide) (fun _ _ => rfl)

/-- C2: on a managed resource of the state tree, selection is the
intersection of the two independently optional filters — with both an
explicit pattern list `E` and a per-file pattern map `F` non-empty the
resource is selected iff some pattern of `E` matches it and some pattern of
some file of `F` matches it; with exactly one non-empty, iff that one
matches; with both empty it is always selected. -/
theorem claim_c2 (root : ModuleNode) (E : List (List Char))
    (F : List (List Char × List (List Char))) (r : Resource)
    (hr : r ∈ walkMod root) (hm : r.mode = some (tl "managed")) :
    (E ≠ [] → F ≠ [] →
      (groupsMem (select_loop root E F) r ↔
        (E.any (fun p => matches_resource_address_filter r.address p) = true
          ∧ F.any (fun pr =>
              pr.2.any (fun p => matches_resource_address_filter r.address p)) = true)))
    ∧ (E ≠ [] → F = [] →
        (groupsMem (select_loop root E F) r ↔
          E.any (fun p => matches_resource_address_filter r.address p) = true))
    ∧ (E = [] → F ≠ [] →
        (groupsMem (select_loop root E F) r ↔
          F.any (fun pr =>
            pr.2.any (fun p => matches_resource_address_filter r.address p)) = true))
    ∧ (E = [] → F = [] → groupsMem (select_loop root E F) r) := by
  have hmain : groupsMem (select_loop root E F) r ↔
      (matches_filters r.address E F).1 = true := by
    rw [groupsMem_select_loop]
    simp [hr, hm]
  rw [matches_filters_fst] at hmain
  have hE : ∀ h : E ≠ [], E.isEmpty = false := by
    intro h
    cases E with
    | nil => exact absurd rfl h
    | cons a l => rfl
  have hF : ∀ h : F ≠ [], F.isEmpty = false := by
    intro h
    cases F with
    | nil => exact absurd rfl h
    | cons a l => rfl
  refine ⟨?_, ?_, ?_, ?_⟩
  · intro h1 h2
    rw [hmain, hE h1, hF h2]
    simp
  · intro h1 h2
    subst h2
    rw [hmain, hE h1]
    simp
  · intro h1 h2
    subst h1
    rw [hmain, hF h2]
    simp
  · intro h1 h2
    subst h1
    subst h2
    rw [hmain]
    simp

theorem claim_c2_witness :
    groupsMem (select_loop demoRoot [tl "aws_s3_bucket.included"] []) demoRes := by
  have h := claim_c2 demoRoot [tl "aws_s3_bucket.included"] [] demoRes
    (by decide) (by decide)
  exact (h.2.1 (by decide) rfl).mpr (by decide)

/-- C10: selection is total over state trees with omitted lists and omitted
modes — a node with a missing resources list or a missing child list behaves
like one with the empty list, and every resource appearing in any group of
the selection output has mode `managed`, so resources with a missing or
different mode are silently excluded. -/
theorem claim_c10 :
    (∀ res : Option (List Resource),
        walkMod (.mk res none) = walkMod (.mk res (some [])))
    ∧ (∀ cs : Option (List ModuleNode),
        walkMod (.mk none cs) = walkMod (.mk (some []) cs))
    ∧ (∀ (root : ModuleNode) (E : List (List Char))
        (F : List (List Char × List (List Char))) (r : Resource),
        groupsMem (select_loop root E F) r → r.mode = some (tl "managed")) := by
  refine ⟨?_, ?_, ?_⟩
  · intro res
    simp [walkMod, walkRev]
  · intro cs
    cases cs with
    | none => simp [walkMod]
    | some l => simp [walkMod]
  · intro root E F r h
    exact ((groupsMem_select_loop root E F r).mp h).2.1

theorem claim_c10_witness : demoRes.mode = some (tl "managed") :=
  claim_c10.2.2 demoRoot [] [] demoRes (by decide)

/-- C8: `extract_address_segment` returns the final two dot-separated
segments joined by a dot exactly when there are at least two segments and the
second-to-last does not carry the container marker (it does not start with
`module`), and `none` otherwise; in particular the second branch of the
source is dead code. -/
theorem claim_c8 (addr : List Char) :
    extract_address_segment addr =
      (let parts := splitOnChar '.' addr
       if 2 ≤ parts.length ∧ ¬ startsWithModule (parts.getD (parts.length - 2) []) = true
       then some (parts.getD (parts.length - 2) [] ++ '.' :: parts.getD (parts.length - 1) [])
       else none) := by
  simp only [extract_address_segment]
  by_cases h1 : 2 ≤ (splitOnChar '.' addr).length ∧
      ¬ startsWithModule
          ((splitOnChar '.' addr).getD ((splitOnChar '.' addr).length - 2) []) = true
  · rw [if_pos h1, if_pos h1]
  · rw [if_neg h1, if_neg h1, if_neg ?hdead]
    case hdead =>
      rintro ⟨hlen, hmod⟩
      exact h1 ⟨by omega, by rw [hlen]; exact hmod⟩

/-- C9: for an AWS-typed resource, a registry generator call that raises or
yields no identifier is locally recovered — `generate_import_block` still
returns the block whose id is the placeholder TODO comment with the
documentation URL derived from the resource type. -/
theorem claim_c9 (schema : List Char → Option ImportGen) (r : Resource)
    (spo : Bool) (gen : ImportGen)
    (hprov : (if r.rtype.contains '_' then (splitOnChar '_' r.rtype).headD [] else [])
        = tl "aws")
    (hsch : schema r.rtype = some gen)
    (hfail : gen r.address r.values = .error ()
        ∨ gen r.address r.values = .ok none) :
    generate_import_block schema r spo
      = some (import_block_template r.address (aws_placeholder_id r.rtype)) := by
  rcases hfail with h | h <;>
    simp only [generate_import_block, hprov, hsch, h, beq_self_eq_true, if_true]

/-- A registry generator that always raises, used as a concrete input. -/
def errGen : ImportGen := fun _ _ => .error ()

theorem claim_c9_witness :
    generate_import_block (fun _ => some errGen) demoRes false
      = some (import_block_template demoRes.address (aws_placeholder_id demoRes.rtype)) :=
  claim_c9 (fun _ => some errGen) demoRes false errGen (by decide) rfl (Or.inl rfl)

/-- When the base-address regex matches the address, a filter equal to the
extracted `group(1)` — or a container filter that `group(1)` extends past a
dot — is accepted by the matcher. -/
theorem matches_of_baseAddr (a p g1 : List Char) (hg : baseAddrG1 a = some g1)
    (h : g1 = p
      ∨ ((tl "module.").isPrefixOf p = true
          ∧ (p ++ [ '.' ]).isPrefixOf g1 = true)) :
    matches_resource_address_filter a p = true := by
  unfold matches_resource_address_filter
  rw [hg]
  rcases h with rfl | ⟨h1, h2⟩
  · simp
  · simp [h1, h2]

/-- C4 counterexample: for the doubly indexed address
`module.a[0].module.b[1].aws_s3_bucket.x` and the container pattern
`module.a.module.b`, the instance-stripped base address does begin with the
pattern plus a dot, yet the matcher rejects the pair, because its base
extraction stops at the first instance key (`group(1)` is `module.a`). -/
theorem claim_c4_counterexample :
    stripInstanceKeys (tl "module.a[0].module.b[1].aws_s3_bucket.x")
        = tl "module.a.module.b.aws_s3_bucket.x"
    ∧ ((tl "module.a.module.b") ++ [ '.' ]).isPrefixOf
        (stripInstanceKeys (tl "module.a[0].module.b[1].aws_s3_bucket.x")) = true
    ∧ baseAddrG1 (tl "module.a[0].module.b[1].aws_s3_bucket.x") = some (tl "module.a")
    ∧ matches_resource_address_filter (tl "module.a[0].module.b[1].aws_s3_bucket.x")
        (tl "module.a.module.b") = false := by
  decide

/-- C4 amended: the matcher works with the prefix of the address before its
first instance key (`group(1)` of the base-address regex), not with the fully
instance-stripped base address; if that prefix equals the pattern, or the
pattern is a container path and the prefix begins with the pattern followed
by a dot, the address matches. -/
theorem claim_c4_amended (a p g1 : List Char) (hg : baseAddrG1 a = some g1)
    (h : g1 = p
      ∨ ((tl "module.").isPrefixOf p = true
          ∧ (p ++ [ '.' ]).isPrefixOf g1 = true)) :
    matches_resource_address_filter a p = true :=
  matches_of_baseAddr a p g1 hg h

theorem claim_c4_witness :
    matches_resource_address_filter (tl "module.a.module.b[0].x.y") (tl "module.a")
      = true :=
  claim_c4_amended (tl "module.a.module.b[0].x.y") (tl "module.a")
    (tl "module.a.module.b") (by decide) (Or.inr ⟨by decide, by decide⟩)

/-- C5 counterexample: the pattern `ab*` carries no instance key, and it
matches the address `abz`; inserting the instance key `[0]` after the first
character gives `a[0]bz`, which the matcher rejects — the inserted key splits
the literal chunk `ab` of the compiled wildcard pattern. -/
theorem claim_c5_counterexample :
    containsInstanceKey (tl "ab*") = false
    ∧ keyMatchLen (tl "[0]") = some 3
    ∧ tl "a[0]bz" = tl "a" ++ tl "[0]" ++ tl "bz"
    ∧ matches_resource_address_filter (tl "a" ++ tl "bz") (tl "ab*") = true
    ∧ matches_resource_address_filter (tl "a[0]bz") (tl "ab*") = false := by
  decide

/-- C5 amended: removing or adding an instance key preserves a match only in
the base-address form the matcher actually implements — whenever the prefix
of the address before its first instance key equals the pattern, the address
matches; in particular a keyless pattern matches the address obtained by
appending one instance key of any shape to it, as in the spec examples. -/
theorem claim_c5_amended (a p : List Char) (hg : baseAddrG1 a = some p) :
    matches_resource_address_filter a p = true :=
  matches_of_baseAddr a p p hg (Or.inl rfl)

theorem claim_c5_witness :
    matches_resource_address_filter (tl "type.name[0]") (tl "type.name") = true :=
  claim_c5_amended (tl "type.name[0]") (tl "type.name") (by decide)

/-! Lemmas connecting the two key-matching embeddings: whenever the
base-address regex could complete a key with an acceptable tail, the plain
key alternation also matches at that position. -/

theorem quotedTail_isSome_lazy (q : Char) (r : List Char)
    (h : quotedTail q r = true) : (lazyQuotedLen q r).isSome = true := by
  induction r with
  | nil => simp [quotedTail] at h
  | cons c rest ih =>
    cases rest with
    | nil => simp [quotedTail] at h
    | cons c2 rest2 =>
      cases rest2 with
      | nil => simp [quotedTail] at h
      | cons c3 rest3 =>
        rw [quotedTail] at h
        by_cases hc : (c == nlChar) = true
        · rw [if_pos hc] at h
          exact absurd h (by simp)
        · rw [if_neg hc] at h
          rw [lazyQuotedLen, if_neg hc]
          by_cases hq : (c2 == q && c3 == ']') = true
          · rw [if_pos hq]
            rfl
          · rw [if_neg hq]
            simp only [Option.isSome_map']
            apply ih
            rw [Bool.or_eq_true] at h
            rcases h with h | h
            · rw [Bool.and_eq_true] at h
              exact absurd h.1 hq
            · exact h

theorem keyTailOk_isSome_keyMatchLen (t : List Char) (h : keyTailOk t = true) :
    (keyMatchLen t).isSome = true := by
  cases t with
  | nil => simp [keyTailOk] at h
  | cons c r =>
    cases r with
    | nil => simp [keyTailOk] at h
    | cons q r2 =>
      rw [keyTailOk, Bool.and_eq_true] at h
      obtain ⟨hbr, hbody⟩ := h
      rw [keyMatchLen, if_pos hbr]
      rw [Bool.or_eq_true, Bool.or_eq_true] at hbody
      by_cases hint : intKeyHead (q :: r2) = true
      · rw [if_pos hint]
        rfl
      · rw [if_neg hint]
        rcases hbody with (hbody | hbody) | hbody
        · exfalso
          apply hint
          rw [intKeyTail, Bool.and_eq_true] at hbody
          exact hbody.1
        · rw [Bool.and_eq_true] at hbody
          obtain ⟨hq, hqt⟩ := hbody
          rw [beq_iff_eq] at hq
          subst hq
          rw [if_pos (beq_self_eq_true _)]
          simp only [Option.isSome_map']
          exact quotedTail_isSome_lazy _ _ hqt
        · rw [Bool.and_eq_true] at hbody
          obtain ⟨hq, hqt⟩ := hbody
          rw [beq_iff_eq] at hq
          subst hq
          rw [if_neg (by decide), if_pos (beq_self_eq_true _)]
          simp only [Option.isSome_map']
          exact quotedTail_isSome_lazy _ _ hqt

theorem baseG1Aux_none (s : List Char) (h : containsInstanceKey s = false) :
    ∀ acc, baseG1Aux acc s = none := by
  induction s with
  | nil => intro acc; rfl
  | cons c rest ih =>
    intro acc
    rw [containsInstanceKey, Bool.or_eq_false_iff] at h
    rw [baseG1Aux]
    by_cases hc : (c == nlChar) = true
    · rw [if_pos hc]
    · rw [if_neg hc]
      have hk : ¬ keyTailOk rest = true := by
        intro hkt
        have hik := keyTailOk_isSome_keyMatchLen rest hkt
        cases rest with
        | nil => simp [keyMatchLen] at hik
        | cons c2 r2 =>
          rw [containsInstanceKey, Bool.or_eq_false_iff] at h
          rw [h.2.1] at hik
          exact absurd hik (by simp)
      rw [if_neg hk]
      exact ih h.2 _

theorem baseAddrG1_eq_none (s : List Char) (h : containsInstanceKey s = false) :
    baseAddrG1 s = none :=
  baseG1Aux_none s h []

/-- C3 counterexample: the address `module.x.aws_s3_bucket.b` and the pattern
`aws_s3_bucket.b` contain no wildcard and no instance-key annotation and are
different strings, yet the matcher accepts the pair through its type/name
fallback. -/
theorem claim_c3_counterexample :
    (tl "module.x.aws_s3_bucket.b").contains '*' = false
    ∧ (tl "aws_s3_bucket.b").contains '*' = false
    ∧ containsInstanceKey (tl "module.x.aws_s3_bucket.b") = false
    ∧ containsInstanceKey (tl "aws_s3_bucket.b") = false
    ∧ tl "module.x.aws_s3_bucket.b" ≠ tl "aws_s3_bucket.b"
    ∧ matches_resource_address_filter (tl "module.x.aws_s3_bucket.b")
        (tl "aws_s3_bucket.b") = true := by
  decide

/-- C3 amended: with no wildcard and no instance-key annotation in either
string, the matcher accepts iff the strings are equal, or the pattern is a
container path the address extends past a dot, or the two strings have the
same trailing type/name segment pair. -/
theorem claim_c3_amended (a p : List Char)
    (ha : a.contains '*' = false) (hp : p.contains '*' = false)
    (hka : containsInstanceKey a = false) (hkp : containsInstanceKey p = false) :
    (matches_resource_address_filter a p = true) ↔
      (a = p
        ∨ ((tl "module.").isPrefixOf p = true ∧ (p ++ [ '.' ]).isPrefixOf a = true)
        ∨ (∃ tn, extract_address_segment a = some tn
            ∧ extract_address_segment p = some tn)) := by
  unfold matches_resource_address_filter
  rw [hp, baseAddrG1_eq_none a hka]
  cases h1 : extract_address_segment a with
  | none =>
    cases h2 : extract_address_segment p with
    | none =>
      simp only [Bool.false_and, Bool.false_or, Bool.or_false, Bool.or_eq_true,
        Bool.and_eq_true, beq_iff_eq]
      constructor
      · rintro (h | h)
        · exact Or.inl h
        · exact Or.inr (Or.inl h)
      · rintro (h | h | ⟨tn, htn, _⟩)
        · exact Or.inl h
        · exact Or.inr h
        · exact absurd htn (by simp)
    | some y =>
      simp only [Bool.false_and, Bool.false_or, Bool.or_false, Bool.or_eq_true,
        Bool.and_eq_true, beq_iff_eq]
      constructor
      · rintro (h | h)
        · exact Or.inl h
        · exact Or.inr (Or.inl h)
      · rintro (h | h | ⟨tn, htn, _⟩)
        · exact Or.inl h
        · exact Or.inr h
        · exact absurd htn (by simp)
  | some x =>
    cases h2 : extract_address_segment p with
    | none =>
      simp only [Bool.false_and, Bool.false_or, Bool.or_false, Bool.or_eq_true,
        Bool.and_eq_true, beq_iff_eq]
      constructor
      · rintro (h | h)
        · exact Or.inl h
        · exact Or.inr (Or.inl h)
      · rintro (h | h | ⟨tn, _, htn⟩)
        · exact Or.inl h
        · exact Or.inr h
        · exact absurd htn (by simp)
    | some y =>
      simp only [Bool.false_and, Bool.false_or, Bool.or_false, Bool.or_eq_true,
        Bool.and_eq_true, beq_iff_eq]
      constructor
      · rintro ((h | h) | h)
        · exact Or.inl h
        · exact Or.inr (Or.inl h)
        · exact Or.inr (Or.inr ⟨x, rfl, by rw [h]⟩)
      · rintro (h | h | ⟨tn, htn1, htn2⟩)
        · exact Or.inl (Or.inl h)
        · exact Or.inl (Or.inr h)
        · refine Or.inr ?_
          rw [Option.some.injEq] at htn1 htn2
          rw [htn1, htn2]

theorem claim_c3_amended_witness :
    matches_resource_address_filter (tl "module.x.type.name") (tl "type.name") = true := by
  have h := claim_c3_amended (tl "module.x.type.name") (tl "type.name")
    (by decide) (by decide) (by decide) (by decide)
  exact h.mpr (Or.inr (Or.inr ⟨tl "type.name", by decide, by decide⟩))

theorem removeDedupLoop_eq (destroy : Bool) (rs : List Resource) :
    ∀ seen : List (List Char),
      removeDedupLoop destroy rs seen
        = (dedupKeepFirst ((rs.map (fun r => stripInstanceKeys r.address)).filter
            (fun b => !(seen.contains b)))).map
            (fun b => removedBlockForBase b destroy) := by
  induction rs with
  | nil =>
    intro seen
    rw [removeDedupLoop]
    simp [dedupKeepFirst]
  | cons r rs ih =>
    intro seen
    rw [removeDedupLoop]
    by_cases h : seen.contains (stripInstanceKeys r.address) = true
    · have hmem : stripInstanceKeys r.address ∈ seen := List.elem_iff.mp h
      rw [if_pos h, ih seen, List.map_cons, List.filter_cons]
      simp [h, hmem]
    · have h2 : seen.contains (stripInstanceKeys r.address) = false := by
        revert h
        cases seen.contains (stripInstanceKeys r.address) <;> simp
      rw [if_neg h, List.map_cons, List.filter_cons]
      simp only [h2, Bool.not_false, if_true]
      rw [dedupKeepFirst, List.map_cons]
      have hblock : generate_removed_block r.address destroy
          = removedBlockForBase (stripInstanceKeys r.address) destroy := rfl
      rw [hblock, ih (stripInstanceKeys r.address :: seen), List.filter_filter]
      have hpred : (fun a => !(a == stripInstanceKeys r.address) && !(seen.contains a))
          = (fun b => !((stripInstanceKeys r.address :: seen).contains b)) := by
        funext x
        show (!(x == stripInstanceKeys r.address) && !(seen.contains x))
            = !((x == stripInstanceKeys r.address) || seen.contains x)
        rw [Bool.not_or]
      rw [hpred]

/-- C6: generating remove blocks emits exactly one block per distinct
instance-stripped base address, in first-seen order of the input list, each
block rendering the base address in its from field and the lifecycle destroy
line selected by the destroy flag. -/
theorem claim_c6 (schema : List Char → Option ImportGen)
    (resources : List Resource) (destroy spo : Bool) :
    generate_blocks_for_command schema resources (tl "remove") destroy spo
      = some ((dedupKeepFirst (resources.map (fun r => stripInstanceKeys r.address))).map
          (fun b => removedBlockForBase b destroy)) := by
  unfold generate_blocks_for_command
  rw [if_pos (beq_self_eq_true _), removeDedupLoop_eq]
  have hfil : (resources.map (fun r => stripInstanceKeys r.address)).filter
      (fun b => !(([] : List (List Char)).contains b))
      = resources.map (fun r => stripInstanceKeys r.address) := by
    apply List.filter_eq_self.mpr
    intro a _
    rfl
  rw [hfil]

/-! Lemmas about the wildcard matcher, leading to the wildcard property. -/

theorem splitOnChar_ne_nil (sep : Char) (x : List Char) :
    splitOnChar sep x ≠ [] := by
  cases x with
  | nil => simp [splitOnChar]
  | cons c rest =>
    simp only [splitOnChar]
    by_cases h : (c == sep) = true
    · simp [h]
    · rw [if_neg h]
      cases hr : splitOnChar sep rest with
      | nil => simp
      | cons s ss => simp

theorem splitOnChar_star_append (x y : List Char) :
    splitOnChar '*' (x ++ '*' :: y) = splitOnChar '*' x ++ splitOnChar '*' y := by
  induction x with
  | nil =>
    simp only [List.nil_append, splitOnChar]
    rw [if_pos (beq_self_eq_true _)]
    rfl
  | cons c x ih =>
    rw [List.cons_append]
    by_cases h : (c == '*') = true
    · simp only [splitOnChar, h, if_true, ih, List.cons_append]
    · have e1 : splitOnChar '*' (c :: (x ++ '*' :: y))
          = match splitOnChar '*' (x ++ '*' :: y) with
            | s :: ss => (c :: s) :: ss
            | [] => [[c]] := by
        simp only [splitOnChar]
        rw [if_neg h]
      have e2 : splitOnChar '*' (c :: x)
          = match splitOnChar '*' x with
            | s :: ss => (c :: s) :: ss
            | [] => [[c]] := by
        simp only [splitOnChar]
        rw [if_neg h]
      rw [e1, e2, ih]
      cases hx : splitOnChar '*' x with
      | nil => exact absurd hx (splitOnChar_ne_nil '*' x)
      | cons s ss =>
        rw [List.cons_append]
        rfl

theorem scanChunk_of_prefix (c : List Char) (k : List Char → Bool) (s : List Char)
    (h1 : c.isPrefixOf s = true) (h2 : k (s.drop c.length) = true) :
    scanChunk c k s = true := by
  cases s with
  | nil =>
    rw [scanChunk, Bool.and_eq_true]
    exact ⟨h1, by simpa using h2⟩
  | cons ch t =>
    rw [scanChunk, Bool.or_eq_true]
    refine Or.inl ?_
    rw [Bool.and_eq_true]
    exact ⟨h1, h2⟩

theorem scanChunk_skip_cons (c : List Char) (k : List Char → Bool) (ch : Char)
    (t : List Char) (hch : ch ≠ nlChar) (h : scanChunk c k t = true) :
    scanChunk c k (ch :: t) = true := by
  rw [scanChunk, Bool.or_eq_true]
  refine Or.inr ?_
  rw [Bool.and_eq_true]
  refine ⟨?_, h⟩
  simp [hch]

theorem scanChunk_skip (c : List Char) (k : List Char → Bool) (m s : List Char)
    (hm : nlChar ∉ m) (h : scanChunk c k s = true) :
    scanChunk c k (m ++ s) = true := by
  induction m with
  | nil => simpa using h
  | cons ch mt ih =>
    rw [List.cons_append]
    apply scanChunk_skip_cons
    · intro he
      exact hm (he ▸ List.mem_cons_self _ _)
    · exact ih (fun hx => hm (List.mem_cons_of_mem _ hx))

theorem glob_anchored (x : List Char) : ∀ (K : List (List Char)) (r : List Char),
    nlChar ∉ x → globStar K r = true →
    ∃ c0 cs, splitOnChar '*' x = c0 :: cs
      ∧ c0.isPrefixOf (x ++ r) = true
      ∧ globStar (cs ++ K) ((x ++ r).drop c0.length) = true := by
  induction x with
  | nil =>
    intro K r hx hk
    exact ⟨[], [], rfl, List.isPrefixOf_nil_left, by simpa using hk⟩
  | cons ch x ih =>
    intro K r hx hk
    have hx2 : nlChar ∉ x := fun hm => hx (List.mem_cons_of_mem _ hm)
    have hch : ch ≠ nlChar := fun he => hx (he ▸ List.mem_cons_self _ _)
    obtain ⟨c0, cs, hs, hpre, hglob⟩ := ih K r hx2 hk
    by_cases h : (ch == '*') = true
    · have hcheq : ch = '*' := beq_iff_eq.mp h
      subst hcheq
      refine ⟨[], splitOnChar '*' x, ?_, rfl, ?_⟩
      · simp only [splitOnChar]
        rw [if_pos (beq_self_eq_true _)]
      · rw [hs]
        simp only [List.length_nil, List.drop_zero, List.cons_append, globStar]
        apply scanChunk_skip_cons _ _ _ _ (by decide)
        exact scanChunk_of_prefix _ _ _ hpre hglob
    · refine ⟨ch :: c0, cs, ?_, ?_, ?_⟩
      · simp only [splitOnChar]
        rw [if_neg h, hs]
      · rw [List.cons_append]
        show ((ch == ch) && c0.isPrefixOf (x ++ r)) = true
        rw [Bool.and_eq_true]
        exact ⟨beq_self_eq_true ch, hpre⟩
      · rw [List.cons_append, List.length_cons, List.drop_succ_cons]
        exact hglob

/-- C7 counterexample: the address made of the three characters `a`,
newline, `b` and the pattern obtained from it by replacing the newline with
`*` do not match — the compiled `.*` of Python `re` does not cross a
newline. -/
theorem claim_c7_counterexample :
    ([ 'a', nlChar, 'b' ] : List Char) = [ 'a' ] ++ [ nlChar ] ++ [ 'b' ]
    ∧ ([ 'a', '*', 'b' ] : List Char) = [ 'a' ] ++ '*' :: [ 'b' ]
    ∧ matches_resource_address_filter [ 'a', nlChar, 'b' ] [ 'a', '*', 'b' ] = false := by
  decide

/-- C7 amended: for a newline-free address, the pattern obtained by
replacing one contiguous substring (possibly empty) with a single `*`
always matches. -/
theorem claim_c7_amended (pre mid suf : List Char)
    (h : nlChar ∉ pre ++ mid ++ suf) :
    matches_resource_address_filter (pre ++ mid ++ suf) (pre ++ '*' :: suf) = true := by
  have hpre : nlChar ∉ pre := fun hm =>
    h (List.mem_append.mpr (Or.inl (List.mem_append.mpr (Or.inl hm))))
  have hmid : nlChar ∉ mid := fun hm =>
    h (List.mem_append.mpr (Or.inl (List.mem_append.mpr (Or.inr hm))))
  have hsuf : nlChar ∉ suf := fun hm => h (List.mem_append.mpr (Or.inr hm))
  have hbase : globStar ([] : List (List Char)) [] = true := rfl
  obtain ⟨c0s, css, hs1, hs2, hs3⟩ := glob_anchored suf [] [] hsuf hbase
  have hsufGlob : globStar (splitOnChar '*' suf) suf = true := by
    rw [hs1, globStar]
    apply scanChunk_of_prefix
    · simpa using hs2
    · rw [List.append_nil] at hs3
      simpa using hs3
  have hmidGlob : globStar (splitOnChar '*' suf) (mid ++ suf) = true := by
    rw [hs1, globStar] at hsufGlob ⊢
    exact scanChunk_skip _ _ _ _ hmid hsufGlob
  obtain ⟨c0, cs, hp1, hp2, hp3⟩ :=
    glob_anchored pre (splitOnChar '*' suf) (mid ++ suf) hpre hmidGlob
  have hw : wildcardMatch (pre ++ mid ++ suf) (pre ++ '*' :: suf) = true := by
    unfold wildcardMatch
    rw [splitOnChar_star_append, hp1, List.cons_append, List.append_assoc]
    show (c0.isPrefixOf (pre ++ (mid ++ suf))
        && globStar (cs ++ splitOnChar '*' suf)
            ((pre ++ (mid ++ suf)).drop c0.length)) = true
    rw [Bool.and_eq_true]
    exact ⟨hp2, hp3⟩
  have hcontains : (pre ++ '*' :: suf).contains '*' = true :=
    List.elem_iff.mpr (List.mem_append.mpr (Or.inr (List.mem_cons_self _ _)))
  unfold matches_resource_address_filter
  rw [hcontains, hw]
  rfl

theorem claim_c7_witness :
    matches_resource_address_filter (tl "aws_" ++ tl "s3" ++ tl "_bucket.test")
      (tl "aws_" ++ '*' :: tl "_bucket.test") = true :=
  claim_c7_amended (tl "aws_") (tl "s3") (tl "_bucket.test") (by decide)

end Tfblocks
